import Mathlib

/-
Verification of Source/Voxels/VoxelTree.cpp: the tile build/merge pipeline of
a voxelized shadow tree.

The pipeline state machine (counters, active-builder list, root-pointer table)
is embedded directly from VoxelTree.cpp.  The collaborating classes whose
sources are not part of this repository snapshot (VoxelWriter, VoxelBuilder,
Bounds) are modelled from the specification, each marked as such in its doc
comment.  Per-frame driver calls, merge-loop iterations and external builder
completions are modelled as atomic transitions of a step relation.
-/

/-! ## Arena writer (VoxelWriter) -/

/-- One 32-bit word of an encoded voxel tree buffer.  Words that hold a child
address are distinguished from plain payload words so that pointer relocation
can be stated. -/
inductive Word where
  | data : Nat → Word
  | ptr : Nat → Word
deriving DecidableEq, Repr, Inhabited

/-- An inner node of the voxel tree; only the child mask matters for the
claims (the dummy node uses mask 21845). -/
structure VoxelInnerNode where
  childMask : Nat
deriving DecidableEq, Repr

/-- The single-writer append-only arena buffer (VoxelWriter). -/
structure VoxelWriter where
  buffer : List Word
deriving DecidableEq, Repr, Inhabited

/-- Relocate one word: addresses are translated by the append offset, payload
words are unchanged. -/
def relocateWord (offset : Nat) : Word → Word
  | .data v => .data v
  | .ptr a => .ptr (a + offset)

/-- Modelled from the spec: VoxelWriter::writeNode (source not under src/)
appends one encoded inner node and returns its address. -/
def writeNode (w : VoxelWriter) (node : VoxelInnerNode) (level siblingIndex : Nat) :
    Nat × VoxelWriter :=
  (w.buffer.length, ⟨w.buffer ++ [Word.data node.childMask]⟩)

/-- Modelled from the spec: VoxelWriter::writeTree (source not under src/)
appends an entire foreign subtree, translating every internal pointer by the
current arena length, and returns the root pointer translated the same way. -/
def writeTree (w : VoxelWriter) (subtree : List Word) (subtreeRoot : Nat)
    (tileResolution : Nat) : Nat × VoxelWriter :=
  (subtreeRoot + w.buffer.length,
   ⟨w.buffer ++ subtree.map (relocateWord w.buffer.length)⟩)

/-- A word is a valid pointer for a buffer of length n: every address it
holds is below n.  Payload words are always valid. -/
def ptrInBounds (n : Nat) : Word → Bool
  | .ptr a => decide (a < n)
  | .data _ => true

/-- Addresses reachable from a root address by following pointer words stored
in the buffer. -/
inductive Reach (buf : List Word) (root : Nat) : Nat → Prop where
  | refl : Reach buf root root
  | step : ∀ a b, Reach buf root a → buf[a]? = some (Word.ptr b) → Reach buf root b

/-! ## Builders (VoxelBuilder handles) -/

/-- The builder lifecycle states exposed to the pipeline. -/
inductive BuildState where
  | building : BuildState
  | done : BuildState
deriving DecidableEq, Repr, Inhabited

/-- One in-flight or finished asynchronous tile build (VoxelBuilder handle);
subtree and rootAddress are the data exposed once the state is done. -/
structure Builder where
  tileIndex : Nat
  state : BuildState
  subtree : List Word
  rootAddress : Nat
deriving DecidableEq, Repr, Inhabited

/-- Index of the first builder in state done, mirroring the scan loop of
VoxelTree::findFinishedBuilder (lines 142-156). -/
def findDoneIdx : List Builder → Option Nat
  | [] => none
  | b :: bs =>
    if b.state = BuildState.done then some 0 else (findDoneIdx bs).map (· + 1)

/-- Swap-with-last-and-pop removal at index i, mirroring
std swap with back() followed by pop_back() (lines 151-152). -/
def swapPop (l : List Builder) (i : Nat) : List Builder :=
  ((l.set i (l.getLastD default)).dropLast)

/-- VoxelTree::findFinishedBuilder: scan for the first builder in state done;
if found, remove it by swap-with-last-and-pop and return it, otherwise leave
the list unchanged and return none. -/
def findFinishedBuilder (l : List Builder) : Option Builder × List Builder :=
  match findDoneIdx l with
  | some i => (l[i]?, swapPop l i)
  | none => (none, l)

/-! ## The pipeline state machine (VoxelTree) -/

/-- Compile-time configuration of the pipeline.  TileSubdivisons (the source
spelling) and ConcurrentBuilds are constants of the missing header; the
oracle gives, per tile index, the subtree buffer and local root address that
the external builder subsystem produces for that tile (opaque to the core). -/
structure Params where
  TileSubdivisons : Nat
  ConcurrentBuilds : Nat
  tileResolution : Nat
  oracle : Nat → List Word × Nat

/-- Number of tiles, TileSubdivisons * TileSubdivisons. -/
def numTiles (p : Params) : Nat := p.TileSubdivisons * p.TileSubdivisons

/-- The mutable state of VoxelTree.  mergedTiles and admittedTiles are ghost
logs of the tile indices processed by merge steps and admissions, used to
state lifetime (exactly-once) properties. -/
structure TreeState where
  startedTiles : Nat
  completedTiles : Nat
  tilesOnGPU : Nat
  activeTiles : List Builder
  treePointers : Nat → Nat
  writer : VoxelWriter
  mergedTiles : List Nat
  admittedTiles : List Nat

/-- The initial write of the dummy fully-unshadowed node (child mask 21845)
performed by the constructor (lines 25-27). -/
def initWrite : Nat × VoxelWriter := writeNode ⟨[]⟩ ⟨21845⟩ 0 0

/-- The state established by the VoxelTree constructor (lines 6-50): zero
counters, no active builders, every root pointer set to the dummy node's
address. -/
def initState (_p : Params) : TreeState :=
  { startedTiles := 0
    completedTiles := 0
    tilesOnGPU := 0
    activeTiles := []
    treePointers := fun _ => initWrite.1
    writer := initWrite.2
    mergedTiles := []
    admittedTiles := [] }

/-- The builder constructed for a tile at admission
(new VoxelBuilder(tileIndex, tileResolution, entryDepths, exitDepths),
line 100); the depth grids and resulting subtree are abstracted by the
oracle. -/
def mkBuilder (p : Params) (tileIndex : Nat) : Builder :=
  ⟨tileIndex, BuildState.building, (p.oracle tileIndex).1, (p.oracle tileIndex).2⟩

/-- VoxelTree::processFirstQueuedTile (lines 79-105): no-op once all tiles
are started; otherwise admit a builder for tile index startedTiles and
increment startedTiles. -/
def processFirstQueuedTile (p : Params) (s : TreeState) : TreeState :=
  if s.startedTiles = numTiles p then s
  else
    { s with
      activeTiles := s.activeTiles ++ [mkBuilder p s.startedTiles]
      startedTiles := s.startedTiles + 1
      admittedTiles := s.admittedTiles ++ [s.startedTiles] }

/-- VoxelTree::updateBuild (lines 57-77): admit a tile if below the
concurrency cap, then republish (updateUniformBuffer + updateTreeBuffer,
modelled by the returned flag) when tilesOnGPU lags completedTiles. -/
def updateBuildFn (p : Params) (s : TreeState) : TreeState × Bool :=
  let s1 := if s.activeTiles.length < p.ConcurrentBuilds
    then processFirstQueuedTile p s else s
  if s1.tilesOnGPU < s1.completedTiles then
    ({ s1 with tilesOnGPU := s1.completedTiles }, true)
  else (s1, false)

/-- One iteration of the VoxelTree::mergeTiles loop (lines 110-136): while
completedTiles < N*N, look for a finished builder; if found, merge its
subtree into the arena, store the relocated root pointer at its tile index,
drop the builder, and increment completedTiles. -/
def mergeIteration (p : Params) (s : TreeState) : TreeState :=
  if s.completedTiles < numTiles p then
    match findFinishedBuilder s.activeTiles with
    | (some b, rest) =>
      { s with
        activeTiles := rest
        writer := (writeTree s.writer b.subtree b.rootAddress p.tileResolution).2
        treePointers := Function.update s.treePointers b.tileIndex
          (writeTree s.writer b.subtree b.rootAddress p.tileResolution).1
        completedTiles := s.completedTiles + 1
        mergedTiles := s.mergedTiles ++ [b.tileIndex] }
    | (none, _) => s
  else s

/-- Mark the builder at position i as done: the externally driven transition
of a builder from building to done. -/
def setDone : List Builder → Nat → List Builder
  | [], _ => []
  | b :: bs, 0 => { b with state := BuildState.done } :: bs
  | b :: bs, n + 1 => b :: setDone bs n

/-- One atomic transition of the pipeline: a per-frame driver call, one merge
loop iteration, or an external builder completion. -/
inductive Step (p : Params) : TreeState → TreeState → Prop where
  | driver : ∀ s, Step p s (updateBuildFn p s).1
  | merge : ∀ s, Step p s (mergeIteration p s)
  | finish : ∀ s i, Step p s { s with activeTiles := setDone s.activeTiles i }

/-- States reachable from the constructor's state by pipeline transitions. -/
def Reachable (p : Params) (s : TreeState) : Prop :=
  Relation.ReflTransGen (Step p) (initState p) s

/-! ## Constructor precondition (lines 18-21) -/

/-- The assertions of the VoxelTree constructor on the computed tile
resolution (resolution / TileSubdivisons): at least 8 so leaf masks can be
used, at most 16384 (maximum texture resolution). -/
def constructorAssertsPass (tileResolution : Nat) : Bool :=
  decide (8 ≤ tileResolution) && decide (tileResolution ≤ 16384)


/-! ## Light-space geometry (Bounds, sceneBoundsLightSpace, tileBounds)

The C++ code computes with float; the embedding uses exact rational
arithmetic, the idealisation under which the spec's exact-partition
statement is meaningful. -/

/-- A 3-component vector (Vector3), over exact rationals. -/
structure V3 where
  x : ℚ
  y : ℚ
  z : ℚ
deriving DecidableEq, Repr

/-- Vector3::zero. -/
def V3.zero : V3 := ⟨0, 0, 0⟩

/-- An axis-aligned bounding box given by its min and max corners. -/
structure Bounds where
  min : V3
  max : V3
deriving DecidableEq, Repr

/-- Modelled from the spec: Bounds::expandToCover (source not under src/)
grows the box so that it covers the given point: componentwise min of the
lower corner and max of the upper corner. -/
def Bounds.expandToCover (b : Bounds) (v : V3) : Bounds :=
  ⟨⟨Min.min b.min.x v.x, Min.min b.min.y v.y, Min.min b.min.z v.z⟩,
   ⟨Max.max b.max.x v.x, Max.max b.max.y v.y, Max.max b.max.z v.z⟩⟩

/-- Bounds::size, the componentwise extent. -/
def Bounds.size (b : Bounds) : V3 :=
  ⟨b.max.x - b.min.x, b.max.y - b.min.y, b.max.z - b.min.z⟩

/-- Membership of a point in a box (all six face inequalities). -/
def Bounds.contains (b : Bounds) (p : V3) : Prop :=
  b.min.x ≤ p.x ∧ p.x ≤ b.max.x ∧ b.min.y ≤ p.y ∧ p.y ≤ b.max.y ∧
    b.min.z ≤ p.z ∧ p.z ≤ b.max.z

/-- Strict interior of a box in the x/y plane; two tiles overlap in area
exactly when some point lies in both interiors. -/
def Bounds.interiorXY (b : Bounds) (p : V3) : Prop :=
  b.min.x < p.x ∧ p.x < b.max.x ∧ b.min.y < p.y ∧ p.y < b.max.y

/-- VoxelTree::sceneBoundsLightSpace (lines 199-231): start from the
degenerate bounds holding only the origin and expand over every transformed
vertex.  The matrix transform of lines 202-222 is abstracted: lightVerts is
the list of vertices already mapped to light space. -/
def sceneBoundsLightSpace (lightVerts : List V3) : Bounds :=
  lightVerts.foldl Bounds.expandToCover ⟨V3.zero, V3.zero⟩

/-- VoxelTree::tileBounds (lines 233-253): the light-space rectangle of the
tile at grid cell (index / N, index % N) of an N-by-N split of the scene
bounds, spanning the full z extent. -/
def tileBounds (N : Nat) (lightVerts : List V3) (index : Nat) : Bounds :=
  let sceneBounds := sceneBoundsLightSpace lightVerts
  let tileSizeX : Rat := sceneBounds.size.x / N
  let tileSizeY : Rat := sceneBounds.size.y / N
  let tx : Nat := index / N
  let ty : Nat := index % N
  let posX : Rat := sceneBounds.min.x + tileSizeX * tx
  let posY : Rat := sceneBounds.min.y + tileSizeY * ty
  ⟨⟨posX, posY, sceneBounds.min.z⟩,
   ⟨posX + tileSizeX, posY + tileSizeY, sceneBounds.max.z⟩⟩

/-! ## Concrete configurations and states used by the witnesses -/

/-- A concrete configuration: 2x2 tiles, concurrency cap 2, tile
resolution 8. -/
def p0 : Params := ⟨2, 2, 8, fun _ => ([Word.ptr 0], 0)⟩

/-- A concrete configuration with a single tile, used to run a complete
admit-finish-merge trace. -/
def p1 : Params := ⟨1, 2, 8, fun _ => ([Word.data 7], 0)⟩

/-- A concrete pipeline state holding one finished builder for tile 0. -/
def s0 : TreeState :=
  { startedTiles := 1
    completedTiles := 0
    tilesOnGPU := 0
    activeTiles := [⟨0, BuildState.done, [Word.ptr 0], 0⟩]
    treePointers := fun _ => 0
    writer := ⟨[Word.data 21845]⟩
    mergedTiles := []
    admittedTiles := [0] }

/-- A concrete pipeline state where one merge has not yet been published. -/
def sGap : TreeState :=
  { startedTiles := 1
    completedTiles := 1
    tilesOnGPU := 0
    activeTiles := []
    treePointers := fun _ => 0
    writer := ⟨[Word.data 21845]⟩
    mergedTiles := [0]
    admittedTiles := [0] }

/-- A concrete state with every tile of p0 already started. -/
def sFull : TreeState := { s0 with startedTiles := 4 }

/-- First step of the single-tile trace: one driver call admits tile 0. -/
def tr1 : TreeState := (updateBuildFn p1 (initState p1)).1

/-- Second step: the external builder for tile 0 finishes. -/
def tr2 : TreeState := { tr1 with activeTiles := setDone tr1.activeTiles 0 }

/-- Third step: one merge-loop iteration merges tile 0. -/
def tr3 : TreeState := mergeIteration p1 tr2

/-- A concrete subtree buffer with one internal pointer, used to exercise
relocation. -/
def witSubtree : List Word := [Word.ptr 1, Word.data 3]

/-- Concrete transformed vertices spanning a 4x4x4 light-space box. -/
def witVerts : List V3 := [⟨4, 4, 4⟩]

/-! ## List helper lemmas -/

theorem setDone_length (l : List Builder) (i : Nat) : (setDone l i).length = l.length := by
  induction l generalizing i with
  | nil => rfl
  | cons b bs ih =>
    cases i with
    | zero => rfl
    | succ n => simpa [setDone] using ih n

theorem setDone_map_tileIndex (l : List Builder) (i : Nat) :
    (setDone l i).map Builder.tileIndex = l.map Builder.tileIndex := by
  induction l generalizing i with
  | nil => rfl
  | cons b bs ih =>
    cases i with
    | zero => rfl
    | succ n => simpa [setDone] using ih n

theorem set_concat_len (xs : List Builder) (c c' : Builder) :
    (xs ++ [c]).set xs.length c' = xs ++ [c'] := by
  induction xs with
  | nil => rfl
  | cons x xs ih => simpa [List.set] using ih

theorem cons_set_perm (xs : List Builder) :
    ∀ i b c, xs[i]? = some b → (b :: xs.set i c).Perm (xs ++ [c]) := by
  induction xs with
  | nil => intro i b c h; simp at h
  | cons x xs ih =>
    intro i b c h
    cases i with
    | zero =>
      simp only [List.getElem?_cons_zero, Option.some_inj] at h
      subst h
      exact List.Perm.cons x (List.perm_append_singleton c xs).symm
    | succ n =>
      simp only [List.getElem?_cons_succ] at h
      have hperm := ih n b c h
      exact (List.Perm.swap x b (xs.set n c)).trans (List.Perm.cons x hperm)

theorem swapPop_perm (l : List Builder) (i : Nat) (b : Builder) (h : l[i]? = some b) :
    (b :: swapPop l i).Perm l := by
  rcases List.eq_nil_or_concat' l with rfl | ⟨xs, c, rfl⟩
  · simp at h
  · have hlen : i < xs.length + 1 := by
      have := List.getElem?_eq_some_iff.mp h
      simpa using this.1
    rcases Nat.lt_or_ge i xs.length with hi | hi
    · have hxs : xs[i]? = some b := by
        rw [List.getElem?_append_left hi] at h; exact h
      have hset : swapPop (xs ++ [c]) i = xs.set i c := by
        unfold swapPop
        rw [List.getLastD_concat, List.set_append_left _ _ hi, List.dropLast_concat]
      rw [hset]
      exact cons_set_perm xs i b c hxs
    · have hieq : i = xs.length := by omega
      subst hieq
      have hbc : b = c := by
        rw [List.getElem?_append_right (Nat.le_refl _)] at h
        simpa using h.symm
      subst hbc
      have hset : swapPop (xs ++ [b]) xs.length = xs := by
        unfold swapPop
        rw [List.getLastD_concat, set_concat_len, List.dropLast_concat]
      rw [hset]
      exact (List.perm_append_singleton b xs).symm

theorem swapPop_length (l : List Builder) (i : Nat) (b : Builder) (h : l[i]? = some b) :
    (swapPop l i).length + 1 = l.length := by
  simpa using (swapPop_perm l i b h).length_eq

theorem findDoneIdx_none {l : List Builder} (h : findDoneIdx l = none) :
    ∀ b ∈ l, b.state ≠ BuildState.done := by
  induction l with
  | nil => intro b hb; simp at hb
  | cons x xs ih =>
    intro b hb
    by_cases hx : x.state = BuildState.done
    · simp [findDoneIdx, hx] at h
    · rw [findDoneIdx, if_neg hx] at h
      cases hfd : findDoneIdx xs with
      | none =>
        rcases List.mem_cons.mp hb with rfl | hmem
        · exact hx
        · exact ih hfd b hmem
      | some k => rw [hfd] at h; simp at h

theorem findDoneIdx_none_of {l : List Builder}
    (h : ∀ b ∈ l, b.state ≠ BuildState.done) : findDoneIdx l = none := by
  induction l with
  | nil => rfl
  | cons x xs ih =>
    have hx : x.state ≠ BuildState.done := h x (List.mem_cons_self x xs)
    rw [findDoneIdx, if_neg hx, ih fun b hb => h b (List.mem_cons_of_mem x hb)]
    rfl

theorem findDoneIdx_some {l : List Builder} {i : Nat} (h : findDoneIdx l = some i) :
    ∃ b, l[i]? = some b ∧ b.state = BuildState.done ∧
      ∀ j, j < i → ∀ c, l[j]? = some c → c.state ≠ BuildState.done := by
  induction l generalizing i with
  | nil => simp [findDoneIdx] at h
  | cons x xs ih =>
    by_cases hx : x.state = BuildState.done
    · rw [findDoneIdx, if_pos hx, Option.some_inj] at h
      subst h
      exact ⟨x, by simp, hx, fun j hj => (Nat.not_lt_zero j hj).elim⟩
    · rw [findDoneIdx, if_neg hx] at h
      cases hfd : findDoneIdx xs with
      | none => rw [hfd] at h; simp at h
      | some i' =>
        rw [hfd] at h
        have hisucc : i = i' + 1 := by simp at h; omega
        subst hisucc
        obtain ⟨b, hb, hbs, hfirst⟩ := ih hfd
        refine ⟨b, by simpa using hb, hbs, ?_⟩
        intro j hj c hc
        cases j with
        | zero =>
          simp only [List.getElem?_cons_zero, Option.some_inj] at hc
          subst hc; exact hx
        | succ m =>
          simp only [List.getElem?_cons_succ] at hc
          exact hfirst m (by omega) c hc

theorem findFinished_some {l : List Builder} {b : Builder} {rest : List Builder}
    (h : findFinishedBuilder l = (some b, rest)) :
    ∃ i, findDoneIdx l = some i ∧ l[i]? = some b ∧ rest = swapPop l i := by
  unfold findFinishedBuilder at h
  cases hidx : findDoneIdx l with
  | none => rw [hidx] at h; simp at h
  | some i =>
    rw [hidx] at h
    have h1 : l[i]? = some b := congrArg Prod.fst h
    have h2 : swapPop l i = rest := congrArg Prod.snd h
    exact ⟨i, rfl, h1, h2.symm⟩

theorem findFinished_none {l : List Builder} {rest : List Builder}
    (h : findFinishedBuilder l = (none, rest)) :
    findDoneIdx l = none ∧ rest = l := by
  unfold findFinishedBuilder at h
  cases hidx : findDoneIdx l with
  | none =>
    rw [hidx] at h
    have h2 : l = rest := congrArg Prod.snd h
    exact ⟨rfl, h2.symm⟩
  | some i =>
    rw [hidx] at h
    obtain ⟨b', hb', _, _⟩ := findDoneIdx_some hidx
    have hfst : l[i]? = none := congrArg Prod.fst h
    rw [hb'] at hfst
    simp at hfst

/-! ## The pipeline invariant -/

/-- The master invariant of the pipeline state: counter bookkeeping, the
concurrency cap, the ghost admission/merge logs, and the dummy value of
not-yet-merged root pointer entries. -/
structure PipelineInv (p : Params) (s : TreeState) : Prop where
  count_eq : s.completedTiles + s.activeTiles.length = s.startedTiles
  started_le : s.startedTiles ≤ numTiles p
  gpu_le : s.tilesOnGPU ≤ s.completedTiles
  cap : s.activeTiles.length ≤ p.ConcurrentBuilds
  admitted : s.admittedTiles = List.range s.startedTiles
  merged_len : s.mergedTiles.length = s.completedTiles
  tilesPerm : (s.mergedTiles ++ s.activeTiles.map Builder.tileIndex).Perm
    (List.range s.startedTiles)
  unmerged : ∀ t, t ∉ s.mergedTiles → s.treePointers t = initWrite.1

theorem inv_init (p : Params) : PipelineInv p (initState p) := by
  refine ⟨rfl, Nat.zero_le _, Nat.le_refl _, Nat.zero_le _, rfl, rfl, ?_, ?_⟩
  · simp [initState]
  · intro t _; rfl

theorem inv_process (p : Params) (s : TreeState) (h : PipelineInv p s)
    (hlen : s.activeTiles.length < p.ConcurrentBuilds) :
    PipelineInv p (processFirstQueuedTile p s) := by
  unfold processFirstQueuedTile
  by_cases hst : s.startedTiles = numTiles p
  · rw [if_pos hst]; exact h
  · rw [if_neg hst]
    have hlt : s.startedTiles < numTiles p := Nat.lt_of_le_of_ne h.started_le hst
    refine ⟨?_, ?_, h.gpu_le, ?_, ?_, h.merged_len, ?_, h.unmerged⟩
    · have := h.count_eq
      simp only [List.length_append, List.length_cons, List.length_nil]
      omega
    · show s.startedTiles + 1 ≤ numTiles p
      omega
    · simp only [List.length_append, List.length_cons, List.length_nil]
      omega
    · simp only [h.admitted, List.range_succ]
    · simp only [List.map_append, List.map_cons, List.map_nil, List.range_succ]
      have h1 : s.mergedTiles ++ (s.activeTiles.map Builder.tileIndex ++
          [(mkBuilder p s.startedTiles).tileIndex]) =
          (s.mergedTiles ++ s.activeTiles.map Builder.tileIndex) ++ [s.startedTiles] := by
        simp [mkBuilder, List.append_assoc]
      rw [h1]
      exact h.tilesPerm.append_right [s.startedTiles]

theorem inv_updateBuild (p : Params) (s : TreeState) (h : PipelineInv p s) :
    PipelineInv p (updateBuildFn p s).1 := by
  unfold updateBuildFn
  have h1 : PipelineInv p (if s.activeTiles.length < p.ConcurrentBuilds
      then processFirstQueuedTile p s else s) := by
    by_cases hc : s.activeTiles.length < p.ConcurrentBuilds
    · rw [if_pos hc]; exact inv_process p s h hc
    · rw [if_neg hc]; exact h
  set s1 := if s.activeTiles.length < p.ConcurrentBuilds
    then processFirstQueuedTile p s else s with hs1
  by_cases hg : s1.tilesOnGPU < s1.completedTiles
  · rw [if_pos hg]
    exact ⟨h1.count_eq, h1.started_le, Nat.le_refl _, h1.cap, h1.admitted,
      h1.merged_len, h1.tilesPerm, h1.unmerged⟩
  · rw [if_neg hg]
    exact h1

theorem inv_merge (p : Params) (s : TreeState) (h : PipelineInv p s) :
    PipelineInv p (mergeIteration p s) := by
  unfold mergeIteration
  by_cases hlt : s.completedTiles < numTiles p
  · rw [if_pos hlt]
    cases hf : findFinishedBuilder s.activeTiles with
    | mk ob rest =>
      cases ob with
      | none =>
        obtain ⟨_, rfl⟩ := findFinished_none hf
        exact h
      | some b =>
        obtain ⟨i, hidx, hbi, hrest⟩ := findFinished_some hf
        subst hrest
        have hperm : (b :: swapPop s.activeTiles i).Perm s.activeTiles :=
          swapPop_perm s.activeTiles i b hbi
        have hlen : (swapPop s.activeTiles i).length + 1 = s.activeTiles.length :=
          swapPop_length s.activeTiles i b hbi
        refine ⟨?_, h.started_le, ?_, ?_, h.admitted, ?_, ?_, ?_⟩
        · have := h.count_eq
          simp only []
          omega
        · exact Nat.le_succ_of_le h.gpu_le
        · have := h.cap
          show (swapPop s.activeTiles i).length ≤ p.ConcurrentBuilds
          omega
        · simp only [List.length_append, List.length_cons, List.length_nil]
          have := h.merged_len
          omega
        · simp only [List.map_append]
          have hassoc : (s.mergedTiles ++ [b.tileIndex]) ++
              (swapPop s.activeTiles i).map Builder.tileIndex =
              s.mergedTiles ++ ((b :: swapPop s.activeTiles i).map Builder.tileIndex) := by
            simp [List.append_assoc]
          rw [hassoc]
          exact ((hperm.map Builder.tileIndex).append_left s.mergedTiles).trans h.tilesPerm
        · intro t ht
          simp only [List.mem_append, List.mem_singleton, not_or] at ht
          show Function.update s.treePointers b.tileIndex
            ((writeTree s.writer b.subtree b.rootAddress p.tileResolution).1) t = initWrite.1
          rw [Function.update_noteq ht.2]
          exact h.unmerged t ht.1
  · rw [if_neg hlt]
    exact h

theorem inv_finish (p : Params) (s : TreeState) (i : Nat) (h : PipelineInv p s) :
    PipelineInv p { s with activeTiles := setDone s.activeTiles i } := by
  refine ⟨?_, h.started_le, h.gpu_le, ?_, h.admitted, h.merged_len, ?_, h.unmerged⟩
  · simpa [setDone_length] using h.count_eq
  · simpa [setDone_length] using h.cap
  · simpa [setDone_map_tileIndex] using h.tilesPerm

theorem inv_step (p : Params) (s s' : TreeState) (h : PipelineInv p s) (hst : Step p s s') :
    PipelineInv p s' := by
  cases hst with
  | driver => exact inv_updateBuild p s h
  | merge => exact inv_merge p s h
  | finish i => exact inv_finish p s i h

theorem inv_reachable (p : Params) (s : TreeState) (h : Reachable p s) : PipelineInv p s := by
  induction h with
  | refl => exact inv_init p
  | tail _ hstep ih => exact inv_step p _ _ ih hstep

/-! ## Field-effect lemmas for the driver call -/

theorem process_completedTiles (p : Params) (s : TreeState) :
    (processFirstQueuedTile p s).completedTiles = s.completedTiles := by
  unfold processFirstQueuedTile; split <;> rfl

theorem process_tilesOnGPU (p : Params) (s : TreeState) :
    (processFirstQueuedTile p s).tilesOnGPU = s.tilesOnGPU := by
  unfold processFirstQueuedTile; split <;> rfl

theorem process_startedTiles_ge (p : Params) (s : TreeState) :
    s.startedTiles ≤ (processFirstQueuedTile p s).startedTiles := by
  unfold processFirstQueuedTile; split
  · exact Nat.le_refl _
  · exact Nat.le_succ _

theorem mono_step (p : Params) (s s' : TreeState) (h : Step p s s') :
    s.startedTiles ≤ s'.startedTiles ∧ s.completedTiles ≤ s'.completedTiles ∧
    s.tilesOnGPU ≤ s'.tilesOnGPU := by
  cases h with
  | driver =>
    unfold updateBuildFn
    set s1 := if s.activeTiles.length < p.ConcurrentBuilds
      then processFirstQueuedTile p s else s with hs1
    have hstart : s.startedTiles ≤ s1.startedTiles := by
      rw [hs1]; split
      · exact process_startedTiles_ge p s
      · exact Nat.le_refl _
    have hcomp : s1.completedTiles = s.completedTiles := by
      rw [hs1]; split
      · exact process_completedTiles p s
      · rfl
    have hgpu : s1.tilesOnGPU = s.tilesOnGPU := by
      rw [hs1]; split
      · exact process_tilesOnGPU p s
      · rfl
    by_cases hg : s1.tilesOnGPU < s1.completedTiles
    · rw [if_pos hg]
      refine ⟨?_, ?_, ?_⟩
      · show s.startedTiles ≤ s1.startedTiles
        exact hstart
      · show s.completedTiles ≤ s1.completedTiles
        omega
      · show s.tilesOnGPU ≤ s1.completedTiles
        omega
    · rw [if_neg hg]
      refine ⟨?_, ?_, ?_⟩
      · show s.startedTiles ≤ s1.startedTiles
        exact hstart
      · show s.completedTiles ≤ s1.completedTiles
        omega
      · show s.tilesOnGPU ≤ s1.tilesOnGPU
        omega
  | merge =>
    unfold mergeIteration
    by_cases hlt : s.completedTiles < numTiles p
    · rw [if_pos hlt]
      cases hf : findFinishedBuilder s.activeTiles with
      | mk ob rest =>
        cases ob with
        | none => exact ⟨Nat.le_refl _, Nat.le_refl _, Nat.le_refl _⟩
        | some b =>
          exact ⟨Nat.le_refl _, Nat.le_succ _, Nat.le_refl _⟩
    · rw [if_neg hlt]
      exact ⟨Nat.le_refl _, Nat.le_refl _, Nat.le_refl _⟩
  | finish i =>
    exact ⟨Nat.le_refl _, Nat.le_refl _, Nat.le_refl _⟩

theorem mono_steps (p : Params) (s s' : TreeState)
    (h : Relation.ReflTransGen (Step p) s s') :
    s.startedTiles ≤ s'.startedTiles ∧ s.completedTiles ≤ s'.completedTiles ∧
    s.tilesOnGPU ≤ s'.tilesOnGPU := by
  induction h with
  | refl => exact ⟨Nat.le_refl _, Nat.le_refl _, Nat.le_refl _⟩
  | tail _ hstep ih =>
    have h2 := mono_step p _ _ hstep
    exact ⟨Nat.le_trans ih.1 h2.1, Nat.le_trans ih.2.1 h2.2.1, Nat.le_trans ih.2.2 h2.2.2⟩

/-! ## Characterization of a successful merge iteration -/

theorem mergeIteration_found (p : Params) (s : TreeState) (b : Builder) (i : Nat)
    (hlt : s.completedTiles < numTiles p)
    (hidx : findDoneIdx s.activeTiles = some i)
    (hb : s.activeTiles[i]? = some b) :
    mergeIteration p s = { s with
      activeTiles := swapPop s.activeTiles i
      writer := (writeTree s.writer b.subtree b.rootAddress p.tileResolution).2
      treePointers := Function.update s.treePointers b.tileIndex
        (writeTree s.writer b.subtree b.rootAddress p.tileResolution).1
      completedTiles := s.completedTiles + 1
      mergedTiles := s.mergedTiles ++ [b.tileIndex] } := by
  have hf : findFinishedBuilder s.activeTiles = (some b, swapPop s.activeTiles i) := by
    unfold findFinishedBuilder
    rw [hidx]
    show (s.activeTiles[i]?, swapPop s.activeTiles i) = (some b, swapPop s.activeTiles i)
    rw [hb]
  unfold mergeIteration
  rw [if_pos hlt, hf]

/-! ## Claim theorems -/

/-- C2: in every reachable state the counters satisfy
tilesOnGPU ≤ completedTiles ≤ startedTiles ≤ N*N, and across any sequence of
driver calls and merge-loop steps each of startedTiles, completedTiles and
tilesOnGPU is monotonically non-decreasing. -/
theorem counters_monotone_and_bounded (p : Params) :
    (∀ s, Reachable p s →
      s.tilesOnGPU ≤ s.completedTiles ∧ s.completedTiles ≤ s.startedTiles ∧
        s.startedTiles ≤ p.TileSubdivisons * p.TileSubdivisons) ∧
    (∀ s s', Relation.ReflTransGen (Step p) s s' →
      s.startedTiles ≤ s'.startedTiles ∧ s.completedTiles ≤ s'.completedTiles ∧
        s.tilesOnGPU ≤ s'.tilesOnGPU) := by
  constructor
  · intro s hs
    have h := inv_reachable p s hs
    have hce := h.count_eq
    exact ⟨h.gpu_le, by omega, h.started_le⟩
  · intro s s' h
    exact mono_steps p s s' h

theorem counters_monotone_and_bounded_witness :
    (updateBuildFn p0 (initState p0)).1.tilesOnGPU
        ≤ (updateBuildFn p0 (initState p0)).1.completedTiles ∧
      (updateBuildFn p0 (initState p0)).1.completedTiles
        ≤ (updateBuildFn p0 (initState p0)).1.startedTiles ∧
      (updateBuildFn p0 (initState p0)).1.startedTiles
        ≤ p0.TileSubdivisons * p0.TileSubdivisons :=
  (counters_monotone_and_bounded p0).1 _
    (Relation.ReflTransGen.single (Step.driver (initState p0)))

/-- C3: the merge loop runs only while completedTiles < N*N; an iteration
that finds no finished builder changes nothing; an iteration that finds the
first finished builder (at scan index i) removes exactly that builder by
swap-with-last-and-pop (the multiset of remaining builders is unchanged),
stores the merged subtree's relocated root pointer at the builder's tile
index, leaves all other table entries unchanged, and increments
completedTiles by exactly one. -/
theorem mergeIteration_spec (p : Params) (s : TreeState) :
    (s.completedTiles = p.TileSubdivisons * p.TileSubdivisons →
      mergeIteration p s = s) ∧
    (s.completedTiles < p.TileSubdivisons * p.TileSubdivisons →
      ((∀ b ∈ s.activeTiles, b.state ≠ BuildState.done) → mergeIteration p s = s) ∧
      (∀ i, findDoneIdx s.activeTiles = some i →
        ∃ b, s.activeTiles[i]? = some b ∧ b.state = BuildState.done ∧
          (∀ j, j < i → ∀ c, s.activeTiles[j]? = some c →
            c.state ≠ BuildState.done) ∧
          (mergeIteration p s).activeTiles = swapPop s.activeTiles i ∧
          (b :: swapPop s.activeTiles i).Perm s.activeTiles ∧
          (mergeIteration p s).treePointers b.tileIndex =
            (writeTree s.writer b.subtree b.rootAddress p.tileResolution).1 ∧
          (∀ t, t ≠ b.tileIndex →
            (mergeIteration p s).treePointers t = s.treePointers t) ∧
          (mergeIteration p s).completedTiles = s.completedTiles + 1)) := by
  constructor
  · intro heq
    unfold mergeIteration
    rw [if_neg (show ¬ s.completedTiles < numTiles p by unfold numTiles; omega)]
  · intro hlt
    have hlt' : s.completedTiles < numTiles p := hlt
    constructor
    · intro hnone
      unfold mergeIteration
      rw [if_pos hlt']
      have hidx : findDoneIdx s.activeTiles = none := findDoneIdx_none_of hnone
      have hf : findFinishedBuilder s.activeTiles = (none, s.activeTiles) := by
        unfold findFinishedBuilder
        rw [hidx]
      rw [hf]
    · intro i hidx
      obtain ⟨b, hb, hbs, hfirst⟩ := findDoneIdx_some hidx
      have hmerge := mergeIteration_found p s b i hlt' hidx hb
      refine ⟨b, hb, hbs, hfirst, ?_, swapPop_perm s.activeTiles i b hb, ?_, ?_, ?_⟩
      · rw [hmerge]
      · rw [hmerge]
        exact Function.update_same _ _ _
      · intro t ht
        rw [hmerge]
        exact Function.update_noteq ht _ _
      · rw [hmerge]

theorem mergeIteration_spec_witness :
    (mergeIteration p0 s0).completedTiles = 1 ∧ (mergeIteration p0 s0).activeTiles = [] := by
  obtain ⟨b, hb, hbs, hfirst, hact, hperm, hupd, hother, hcomp⟩ :=
    ((mergeIteration_spec p0 s0).2 (by decide)).2 0 (by decide)
  constructor
  · rw [hcomp]
    rfl
  · rw [hact]
    rfl

/-- C4: processFirstQueuedTile is a no-op once startedTiles = N*N; otherwise
it appends exactly one new builder whose tile index is the current
startedTiles and increments startedTiles by one; consequently, in any
reachable state with startedTiles = N*N the admission log is exactly the
tile indices 0, 1, ..., N*N-1 in increasing order, each admitted once. -/
theorem admission_spec (p : Params) :
    (∀ s, s.startedTiles = p.TileSubdivisons * p.TileSubdivisons →
      processFirstQueuedTile p s = s) ∧
    (∀ s, s.startedTiles ≠ p.TileSubdivisons * p.TileSubdivisons →
      (processFirstQueuedTile p s).activeTiles
          = s.activeTiles ++ [mkBuilder p s.startedTiles] ∧
        (mkBuilder p s.startedTiles).tileIndex = s.startedTiles ∧
        (processFirstQueuedTile p s).startedTiles = s.startedTiles + 1 ∧
        (processFirstQueuedTile p s).admittedTiles
          = s.admittedTiles ++ [s.startedTiles]) ∧
    (∀ s, Reachable p s → s.startedTiles = p.TileSubdivisons * p.TileSubdivisons →
      s.admittedTiles = List.range (p.TileSubdivisons * p.TileSubdivisons)) := by
  refine ⟨?_, ?_, ?_⟩
  · intro s hs
    unfold processFirstQueuedTile
    rw [if_pos (show s.startedTiles = numTiles p from hs)]
  · intro s hs
    unfold processFirstQueuedTile
    rw [if_neg (show ¬ s.startedTiles = numTiles p from hs)]
    exact ⟨rfl, rfl, rfl, rfl⟩
  · intro s hr hs
    rw [(inv_reachable p s hr).admitted, hs]

theorem admission_spec_witness :
    tr3.admittedTiles = List.range (p1.TileSubdivisons * p1.TileSubdivisons) := by
  have h1 : Relation.ReflTransGen (Step p1) (initState p1) tr1 :=
    Relation.ReflTransGen.single (Step.driver (initState p1))
  have h2 : Relation.ReflTransGen (Step p1) (initState p1) tr2 :=
    Relation.ReflTransGen.tail h1 (Step.finish tr1 0)
  have h3 : Reachable p1 tr3 := Relation.ReflTransGen.tail h2 (Step.merge tr2)
  exact (admission_spec p1).2.2 tr3 h3 (by decide)

/-- C5: at construction the arena holds exactly the one dummy node with
child mask 21845 and every root-pointer-table entry is its address; a merge
writes exactly the entry of the merged builder's tile and no other; in every
reachable state no tile has been merged twice and every not-yet-merged entry
still holds the dummy address; when all tiles are completed every tile has
been merged exactly once. -/
theorem rootPointerTable_spec (p : Params) :
    ((initState p).writer.buffer = [Word.data 21845] ∧
      ∀ t, (initState p).treePointers t = initWrite.1) ∧
    (∀ s b rest, findFinishedBuilder s.activeTiles = (some b, rest) →
      s.completedTiles < numTiles p →
      (mergeIteration p s).treePointers b.tileIndex =
        (writeTree s.writer b.subtree b.rootAddress p.tileResolution).1 ∧
      ∀ t, t ≠ b.tileIndex → (mergeIteration p s).treePointers t = s.treePointers t) ∧
    (∀ s, Reachable p s → s.mergedTiles.Nodup ∧
      ∀ t, t ∉ s.mergedTiles → s.treePointers t = initWrite.1) ∧
    (∀ s, Reachable p s → s.completedTiles = numTiles p →
      s.mergedTiles.Perm (List.range (numTiles p))) := by
  refine ⟨⟨rfl, fun t => rfl⟩, ?_, ?_, ?_⟩
  · intro s b rest hf hlt
    obtain ⟨i, hidx, hb, hrest⟩ := findFinished_some hf
    have hmerge := mergeIteration_found p s b i hlt hidx hb
    constructor
    · rw [hmerge]
      exact Function.update_same _ _ _
    · intro t ht
      rw [hmerge]
      exact Function.update_noteq ht _ _
  · intro s hr
    have h := inv_reachable p s hr
    constructor
    · have hnd : (s.mergedTiles ++ s.activeTiles.map Builder.tileIndex).Nodup :=
        (h.tilesPerm.nodup_iff).mpr (List.nodup_range _)
      exact hnd.of_append_left
    · exact h.unmerged
  · intro s hr hc
    have h := inv_reachable p s hr
    have hce := h.count_eq
    have hsle := h.started_le
    have hlen0 : s.activeTiles.length = 0 := by omega
    have hnil : s.activeTiles = [] := List.length_eq_zero.mp hlen0
    have hp := h.tilesPerm
    rw [hnil] at hp
    simp only [List.map_nil, List.append_nil] at hp
    have hs : s.startedTiles = numTiles p := by omega
    rw [hs] at hp
    exact hp

theorem rootPointerTable_spec_witness :
    (initState p0).writer.buffer = [Word.data 21845] ∧ (initState p0).mergedTiles.Nodup :=
  ⟨(rootPointerTable_spec p0).1.1,
   ((rootPointerTable_spec p0).2.2.1 (initState p0) Relation.ReflTransGen.refl).1⟩

/-- C6: in every reachable state at most ConcurrentBuilds builders are
active, and a driver call made when the count is not strictly below the cap
admits nothing (the active collection is unchanged). -/
theorem activeBuilders_bounded (p : Params) :
    (∀ s, Reachable p s → s.activeTiles.length ≤ p.ConcurrentBuilds) ∧
    (∀ s, p.ConcurrentBuilds ≤ s.activeTiles.length →
      (updateBuildFn p s).1.activeTiles = s.activeTiles) := by
  constructor
  · intro s hs
    exact (inv_reachable p s hs).cap
  · intro s hc
    unfold updateBuildFn
    have hnl : ¬ s.activeTiles.length < p.ConcurrentBuilds := by omega
    rw [if_neg hnl]
    by_cases hg : s.tilesOnGPU < s.completedTiles
    · rw [if_pos hg]
    · rw [if_neg hg]

theorem activeBuilders_bounded_witness :
    (initState p0).activeTiles.length ≤ p0.ConcurrentBuilds :=
  (activeBuilders_bounded p0).1 (initState p0) Relation.ReflTransGen.refl

/-- C7: a driver call republishes (updateUniformBuffer and updateTreeBuffer,
the returned flag) if and only if tilesOnGPU < completedTiles at the time of
the call; in that case it sets tilesOnGPU to the observed completedTiles,
otherwise tilesOnGPU is unchanged. -/
theorem publishGate_spec (p : Params) (s : TreeState) :
    ((updateBuildFn p s).2 = true ↔ s.tilesOnGPU < s.completedTiles) ∧
    (s.tilesOnGPU < s.completedTiles →
      (updateBuildFn p s).1.tilesOnGPU = s.completedTiles) ∧
    (¬ s.tilesOnGPU < s.completedTiles →
      (updateBuildFn p s).1.tilesOnGPU = s.tilesOnGPU) := by
  unfold updateBuildFn
  set s1 := if s.activeTiles.length < p.ConcurrentBuilds
    then processFirstQueuedTile p s else s with hs1
  have hcomp : s1.completedTiles = s.completedTiles := by
    rw [hs1]; split
    · exact process_completedTiles p s
    · rfl
  have hgpu : s1.tilesOnGPU = s.tilesOnGPU := by
    rw [hs1]; split
    · exact process_tilesOnGPU p s
    · rfl
  by_cases hg : s1.tilesOnGPU < s1.completedTiles
  · rw [if_pos hg]
    have hlt : s.tilesOnGPU < s.completedTiles := by omega
    refine ⟨⟨fun _ => hlt, fun _ => rfl⟩, fun _ => ?_, fun hn => absurd hlt hn⟩
    show s1.completedTiles = s.completedTiles
    exact hcomp
  · rw [if_neg hg]
    have hnlt : ¬ s.tilesOnGPU < s.completedTiles := by omega
    refine ⟨⟨fun habs => ?_, fun hlt => absurd hlt hnlt⟩,
      fun hlt => absurd hlt hnlt, fun _ => ?_⟩
    · exact absurd habs (by simp)
    · show s1.tilesOnGPU = s.tilesOnGPU
      exact hgpu

theorem publishGate_spec_witness :
    (updateBuildFn p0 sGap).2 = true ∧ (updateBuildFn p0 sGap).1.tilesOnGPU = sGap.completedTiles :=
  ⟨(publishGate_spec p0 sGap).1.mpr (by decide), (publishGate_spec p0 sGap).2.1 (by decide)⟩

/-- C1: merging a subtree into an arena of length L appends it with every
internal pointer rewritten to its original value plus L, returns the
subtree's root translated by L, and (for a subtree whose local pointers are
in bounds) every address reachable from the returned root is a valid address
of the combined buffer. -/
theorem writeTree_relocates (w : VoxelWriter) (subtree : List Word) (root res : Nat)
    (hroot : root < subtree.length)
    (hptrs : ∀ x ∈ subtree, ptrInBounds subtree.length x = true) :
    (writeTree w subtree root res).1 = root + w.buffer.length ∧
    ((writeTree w subtree root res).2).buffer.length
      = w.buffer.length + subtree.length ∧
    (∀ i a, subtree[i]? = some (Word.ptr a) →
      ((writeTree w subtree root res).2).buffer[w.buffer.length + i]?
        = some (Word.ptr (a + w.buffer.length))) ∧
    (∀ x, Reach ((writeTree w subtree root res).2).buffer
        (writeTree w subtree root res).1 x →
      x < ((writeTree w subtree root res).2).buffer.length) := by
  set L := w.buffer.length with hL
  have hbuf : ((writeTree w subtree root res).2).buffer
      = w.buffer ++ subtree.map (relocateWord L) := rfl
  have hlen : ((writeTree w subtree root res).2).buffer.length = L + subtree.length := by
    rw [hbuf]
    simp [List.length_append, List.length_map]
  have hgetp : ∀ i a, subtree[i]? = some (Word.ptr a) →
      ((writeTree w subtree root res).2).buffer[L + i]?
        = some (Word.ptr (a + L)) := by
    intro i a hia
    rw [hbuf, List.getElem?_append_right (show w.buffer.length ≤ L + i by omega)]
    have hidx : L + i - w.buffer.length = i := by omega
    rw [hidx, List.getElem?_map, hia]
    rfl
  have hstrong : ∀ x, Reach ((writeTree w subtree root res).2).buffer
      (writeTree w subtree root res).1 x → L ≤ x ∧ x < L + subtree.length := by
    intro x hx
    induction hx with
    | refl =>
      show L ≤ root + w.buffer.length ∧ root + w.buffer.length < L + subtree.length
      omega
    | step a b ha hab ih =>
      obtain ⟨h1, h2⟩ := ih
      rw [hbuf, List.getElem?_append_right (show w.buffer.length ≤ a by omega),
        List.getElem?_map] at hab
      cases hsub : subtree[a - w.buffer.length]? with
      | none => rw [hsub] at hab; simp at hab
      | some word =>
        rw [hsub] at hab
        cases word with
        | data v => simp [relocateWord] at hab
        | ptr c =>
          have hcb : c + L = b := by
            simp [relocateWord] at hab
            omega
          have hmem : Word.ptr c ∈ subtree := List.getElem?_mem hsub
          have hc := hptrs _ hmem
          simp only [ptrInBounds, decide_eq_true_eq] at hc
          omega
  refine ⟨rfl, hlen, hgetp, ?_⟩
  intro x hx
  have := hstrong x hx
  rw [hlen]
  omega

theorem writeTree_relocates_witness :
    (writeTree ⟨[Word.data 9]⟩ witSubtree 0 8).1 = 1 ∧
    ((writeTree ⟨[Word.data 9]⟩ witSubtree 0 8).2).buffer[1]? = some (Word.ptr 2) := by
  have h := writeTree_relocates ⟨[Word.data 9]⟩ witSubtree 0 8 (by decide) (by decide)
  refine ⟨h.1, ?_⟩
  exact h.2.2.1 0 1 (by decide)

/-- C9: the constructor's checked precondition on the tile resolution is
8 ≤ r ≤ 16384; tile resolution exactly 8 passes, 4 and 32769 both fail the
assertions. -/
theorem constructorResolution_boundary :
    constructorAssertsPass 8 = true ∧ constructorAssertsPass 4 = false ∧
    constructorAssertsPass 32769 = false ∧
    (∀ r, constructorAssertsPass r = true ↔ (8 ≤ r ∧ r ≤ 16384)) := by
  refine ⟨rfl, rfl, rfl, ?_⟩
  intro r
  unfold constructorAssertsPass
  simp

/-! ## Fold lemmas for the scene-bounds computation -/

theorem foldl_expand_bounds (pts : List V3) :
    ∀ b : Bounds,
      (pts.foldl Bounds.expandToCover b).min.x ≤ b.min.x ∧
      (pts.foldl Bounds.expandToCover b).min.y ≤ b.min.y ∧
      (pts.foldl Bounds.expandToCover b).min.z ≤ b.min.z ∧
      b.max.x ≤ (pts.foldl Bounds.expandToCover b).max.x ∧
      b.max.y ≤ (pts.foldl Bounds.expandToCover b).max.y ∧
      b.max.z ≤ (pts.foldl Bounds.expandToCover b).max.z := by
  induction pts with
  | nil =>
    intro b
    exact ⟨le_refl _, le_refl _, le_refl _, le_refl _, le_refl _, le_refl _⟩
  | cons v ps ih =>
    intro b
    have h := ih (b.expandToCover v)
    simp only [List.foldl_cons]
    exact ⟨h.1.trans (min_le_left _ _), h.2.1.trans (min_le_left _ _),
      h.2.2.1.trans (min_le_left _ _),
      (le_max_left _ _).trans h.2.2.2.1,
      (le_max_left _ _).trans h.2.2.2.2.1,
      (le_max_left _ _).trans h.2.2.2.2.2⟩

theorem foldl_expand_min_le_max (pts : List V3) :
    ∀ b : Bounds, b.min.x ≤ b.max.x → b.min.y ≤ b.max.y → b.min.z ≤ b.max.z →
      (pts.foldl Bounds.expandToCover b).min.x ≤ (pts.foldl Bounds.expandToCover b).max.x ∧
      (pts.foldl Bounds.expandToCover b).min.y ≤ (pts.foldl Bounds.expandToCover b).max.y ∧
      (pts.foldl Bounds.expandToCover b).min.z ≤ (pts.foldl Bounds.expandToCover b).max.z := by
  induction pts with
  | nil => intro b hx hy hz; exact ⟨hx, hy, hz⟩
  | cons v ps ih =>
    intro b hx hy hz
    simp only [List.foldl_cons]
    exact ih (b.expandToCover v)
      ((min_le_left _ _).trans (hx.trans (le_max_left _ _)))
      ((min_le_left _ _).trans (hy.trans (le_max_left _ _)))
      ((min_le_left _ _).trans (hz.trans (le_max_left _ _)))

theorem sceneBounds_min_le_max (pts : List V3) :
    (sceneBoundsLightSpace pts).min.x ≤ (sceneBoundsLightSpace pts).max.x ∧
    (sceneBoundsLightSpace pts).min.y ≤ (sceneBoundsLightSpace pts).max.y ∧
    (sceneBoundsLightSpace pts).min.z ≤ (sceneBoundsLightSpace pts).max.z :=
  foldl_expand_min_le_max pts ⟨V3.zero, V3.zero⟩ (le_refl _) (le_refl _) (le_refl _)

/-- C10: the light-space scene bounds always contain the origin (the
computation starts from the degenerate bounds at the origin and only ever
expands), and with no mesh instances the result is exactly the zero-size
bounds at the origin. -/
theorem sceneBounds_contains_origin :
    (∀ pts : List V3, (sceneBoundsLightSpace pts).contains V3.zero) ∧
    sceneBoundsLightSpace [] = ⟨V3.zero, V3.zero⟩ := by
  constructor
  · intro pts
    have h := foldl_expand_bounds pts ⟨V3.zero, V3.zero⟩
    exact ⟨h.1, h.2.2.2.1, h.2.1, h.2.2.2.2.1, h.2.2.1, h.2.2.2.2.2⟩
  · rfl

/-! ## One-dimensional interval lemmas for the tile partition -/

theorem cover1D (s : ℚ) (hs : 0 ≤ s) :
    ∀ (n : Nat) (a q : ℚ), 0 < n → a ≤ q → q ≤ a + s * n →
      ∃ k : Nat, k < n ∧ a + s * k ≤ q ∧ q ≤ a + s * (k + 1) := by
  intro n
  induction n with
  | zero => intro a q h0; simp at h0
  | succ m ih =>
    intro a q _ ha hq
    by_cases hc : q ≤ a + s * 1
    · refine ⟨0, Nat.succ_pos m, ?_, ?_⟩
      · push_cast
        linarith
      · push_cast
        linarith
    · push_neg at hc
      have hm : 0 < m := by
        rcases Nat.eq_zero_or_pos m with rfl | hm
        · push_cast at hq
          linarith
        · exact hm
      obtain ⟨k, hk, h1, h2⟩ := ih (a + s) q hm (by linarith)
        (by push_cast at hq ⊢; ring_nf at hq ⊢; linarith)
      refine ⟨k + 1, by omega, ?_, ?_⟩
      · push_cast at h1 ⊢
        ring_nf at h1 ⊢
        linarith
      · push_cast at h2 ⊢
        ring_nf at h2 ⊢
        linarith

theorem tiles_disjoint_1D (a s : ℚ) (hs : 0 ≤ s) (k1 k2 : ℕ) (hk : k1 < k2) (q : ℚ)
    (h1 : q < a + s * (k1 + 1)) (h2 : a + s * k2 < q) : False := by
  have hle : (k1 : ℚ) + 1 ≤ (k2 : ℚ) := by
    exact_mod_cast Nat.succ_le_of_lt hk
  have hmul : s * ((k1 : ℚ) + 1) ≤ s * k2 := mul_le_mul_of_nonneg_left hle hs
  linarith

theorem tileBounds_eq (N : Nat) (verts : List V3) (i : Nat) :
    tileBounds N verts i =
      ⟨⟨(sceneBoundsLightSpace verts).min.x
          + (sceneBoundsLightSpace verts).size.x / N * ((i / N : ℕ) : ℚ),
        (sceneBoundsLightSpace verts).min.y
          + (sceneBoundsLightSpace verts).size.y / N * ((i % N : ℕ) : ℚ),
        (sceneBoundsLightSpace verts).min.z⟩,
       ⟨(sceneBoundsLightSpace verts).min.x
          + (sceneBoundsLightSpace verts).size.x / N * ((i / N : ℕ) : ℚ)
          + (sceneBoundsLightSpace verts).size.x / N,
        (sceneBoundsLightSpace verts).min.y
          + (sceneBoundsLightSpace verts).size.y / N * ((i % N : ℕ) : ℚ)
          + (sceneBoundsLightSpace verts).size.y / N,
        (sceneBoundsLightSpace verts).max.z⟩⟩ := rfl

theorem tile_interior_disjoint_1D (a s : ℚ) (hs : 0 ≤ s) (k1 k2 : ℕ) (hne : k1 ≠ k2)
    (q : ℚ) (h1 : a + s * k1 < q) (h2 : q < a + s * k1 + s)
    (h3 : a + s * k2 < q) (h4 : q < a + s * k2 + s) : False := by
  rcases Nat.lt_or_ge k1 k2 with h | h
  · refine tiles_disjoint_1D a s hs k1 k2 h q ?_ h3
    have hr : a + s * ((k1 : ℚ) + 1) = a + s * k1 + s := by ring
    linarith
  · have h' : k2 < k1 := by omega
    refine tiles_disjoint_1D a s hs k2 k1 h' q ?_ h1
    have hr : a + s * ((k2 : ℚ) + 1) = a + s * k2 + s := by ring
    linarith

/-- C8: for 0 < N the N*N tile rectangles partition the scene bounds
exactly: a point lies in the scene bounds iff it lies in some tile; distinct
tiles have disjoint x/y interiors (edges may touch); each tile spans the
full z extent; tile i occupies grid cell (i / N, i % N), its lower corner
offset by tileSize * cell from the scene minimum. -/
theorem tileBounds_partition (N : Nat) (verts : List V3) (hN : 0 < N) :
    (∀ q : V3, (sceneBoundsLightSpace verts).contains q ↔
      ∃ i, i < N * N ∧ (tileBounds N verts i).contains q) ∧
    (∀ i j, i < N * N → j < N * N → i ≠ j → ∀ q : V3,
      ¬((tileBounds N verts i).interiorXY q ∧ (tileBounds N verts j).interiorXY q)) ∧
    (∀ i, (tileBounds N verts i).min.z = (sceneBoundsLightSpace verts).min.z ∧
      (tileBounds N verts i).max.z = (sceneBoundsLightSpace verts).max.z) ∧
    (∀ i, (tileBounds N verts i).min.x = (sceneBoundsLightSpace verts).min.x
        + (sceneBoundsLightSpace verts).size.x / N * ((i / N : ℕ) : ℚ) ∧
      (tileBounds N verts i).min.y = (sceneBoundsLightSpace verts).min.y
        + (sceneBoundsLightSpace verts).size.y / N * ((i % N : ℕ) : ℚ)) := by
  have hmm := sceneBounds_min_le_max verts
  have hNQ : (N : ℚ) ≠ 0 := Nat.cast_ne_zero.mpr (by omega)
  have hsizex : (sceneBoundsLightSpace verts).size.x
      = (sceneBoundsLightSpace verts).max.x - (sceneBoundsLightSpace verts).min.x := rfl
  have hsizey : (sceneBoundsLightSpace verts).size.y
      = (sceneBoundsLightSpace verts).max.y - (sceneBoundsLightSpace verts).min.y := rfl
  have hxnn : 0 ≤ (sceneBoundsLightSpace verts).size.x := by
    rw [hsizex]; linarith [hmm.1]
  have hynn : 0 ≤ (sceneBoundsLightSpace verts).size.y := by
    rw [hsizey]; linarith [hmm.2.1]
  have hsx0 : 0 ≤ (sceneBoundsLightSpace verts).size.x / (N : ℚ) :=
    div_nonneg hxnn (Nat.cast_nonneg N)
  have hsy0 : 0 ≤ (sceneBoundsLightSpace verts).size.y / (N : ℚ) :=
    div_nonneg hynn (Nat.cast_nonneg N)
  have hsxN : (sceneBoundsLightSpace verts).size.x / (N : ℚ) * (N : ℚ)
      = (sceneBoundsLightSpace verts).size.x := div_mul_cancel₀ _ hNQ
  have hsyN : (sceneBoundsLightSpace verts).size.y / (N : ℚ) * (N : ℚ)
      = (sceneBoundsLightSpace verts).size.y := div_mul_cancel₀ _ hNQ
  refine ⟨?_, ?_, fun i => ⟨rfl, rfl⟩, fun i => ⟨rfl, rfl⟩⟩
  · intro q
    constructor
    · intro hq
      obtain ⟨hx1, hx2, hy1, hy2, hz1, hz2⟩ :
          (sceneBoundsLightSpace verts).min.x ≤ q.x ∧
          q.x ≤ (sceneBoundsLightSpace verts).max.x ∧
          (sceneBoundsLightSpace verts).min.y ≤ q.y ∧
          q.y ≤ (sceneBoundsLightSpace verts).max.y ∧
          (sceneBoundsLightSpace verts).min.z ≤ q.z ∧
          q.z ≤ (sceneBoundsLightSpace verts).max.z := hq
      obtain ⟨kx, hkx, hkx1, hkx2⟩ :=
        cover1D ((sceneBoundsLightSpace verts).size.x / (N : ℚ)) hsx0 N
          (sceneBoundsLightSpace verts).min.x q.x hN hx1 (by rw [hsxN]; linarith)
      obtain ⟨ky, hky, hky1, hky2⟩ :=
        cover1D ((sceneBoundsLightSpace verts).size.y / (N : ℚ)) hsy0 N
          (sceneBoundsLightSpace verts).min.y q.y hN hy1 (by rw [hsyN]; linarith)
      refine ⟨kx * N + ky, ?_, ?_⟩
      · have h1 : kx * N + ky < kx * N + N := Nat.add_lt_add_left hky _
        have h2 : kx * N + N = (kx + 1) * N := (Nat.succ_mul kx N).symm
        have h3 : (kx + 1) * N ≤ N * N := Nat.mul_le_mul_right N (Nat.succ_le_of_lt hkx)
        omega
      · have hdiv : (kx * N + ky) / N = kx := by
          rw [Nat.add_comm, Nat.add_mul_div_right _ _ hN, Nat.div_eq_of_lt hky]
          omega
        have hmod : (kx * N + ky) % N = ky := by
          rw [Nat.add_comm, Nat.add_mul_mod_self_right, Nat.mod_eq_of_lt hky]
        refine ⟨?_, ?_, ?_, ?_, hz1, hz2⟩
        · show (sceneBoundsLightSpace verts).min.x
            + (sceneBoundsLightSpace verts).size.x / (N : ℚ)
              * (((kx * N + ky) / N : ℕ) : ℚ) ≤ q.x
          rw [hdiv]
          exact hkx1
        · show q.x ≤ (sceneBoundsLightSpace verts).min.x
            + (sceneBoundsLightSpace verts).size.x / (N : ℚ)
              * (((kx * N + ky) / N : ℕ) : ℚ)
            + (sceneBoundsLightSpace verts).size.x / (N : ℚ)
          rw [hdiv]
          have hr : (sceneBoundsLightSpace verts).min.x
              + (sceneBoundsLightSpace verts).size.x / (N : ℚ) * ((kx : ℚ) + 1)
              = (sceneBoundsLightSpace verts).min.x
              + (sceneBoundsLightSpace verts).size.x / (N : ℚ) * (kx : ℚ)
              + (sceneBoundsLightSpace verts).size.x / (N : ℚ) := by ring
          linarith
        · show (sceneBoundsLightSpace verts).min.y
            + (sceneBoundsLightSpace verts).size.y / (N : ℚ)
              * (((kx * N + ky) % N : ℕ) : ℚ) ≤ q.y
          rw [hmod]
          exact hky1
        · show q.y ≤ (sceneBoundsLightSpace verts).min.y
            + (sceneBoundsLightSpace verts).size.y / (N : ℚ)
              * (((kx * N + ky) % N : ℕ) : ℚ)
            + (sceneBoundsLightSpace verts).size.y / (N : ℚ)
          rw [hmod]
          have hr : (sceneBoundsLightSpace verts).min.y
              + (sceneBoundsLightSpace verts).size.y / (N : ℚ) * ((ky : ℚ) + 1)
              = (sceneBoundsLightSpace verts).min.y
              + (sceneBoundsLightSpace verts).size.y / (N : ℚ) * (ky : ℚ)
              + (sceneBoundsLightSpace verts).size.y / (N : ℚ) := by ring
          linarith
    · rintro ⟨i, hi, hq⟩
      obtain ⟨hx1, hx2, hy1, hy2, hz1, hz2⟩ :
          (sceneBoundsLightSpace verts).min.x
            + (sceneBoundsLightSpace verts).size.x / (N : ℚ) * ((i / N : ℕ) : ℚ) ≤ q.x ∧
          q.x ≤ (sceneBoundsLightSpace verts).min.x
            + (sceneBoundsLightSpace verts).size.x / (N : ℚ) * ((i / N : ℕ) : ℚ)
            + (sceneBoundsLightSpace verts).size.x / (N : ℚ) ∧
          (sceneBoundsLightSpace verts).min.y
            + (sceneBoundsLightSpace verts).size.y / (N : ℚ) * ((i % N : ℕ) : ℚ) ≤ q.y ∧
          q.y ≤ (sceneBoundsLightSpace verts).min.y
            + (sceneBoundsLightSpace verts).size.y / (N : ℚ) * ((i % N : ℕ) : ℚ)
            + (sceneBoundsLightSpace verts).size.y / (N : ℚ) ∧
          (sceneBoundsLightSpace verts).min.z ≤ q.z ∧
          q.z ≤ (sceneBoundsLightSpace verts).max.z := hq
      have hkx : i / N < N := (Nat.div_lt_iff_lt_mul hN).mpr hi
      have hky : i % N < N := Nat.mod_lt i hN
      have hcx1 : ((i / N : ℕ) : ℚ) + 1 ≤ (N : ℚ) := by
        exact_mod_cast Nat.succ_le_of_lt hkx
      have hcy1 : ((i % N : ℕ) : ℚ) + 1 ≤ (N : ℚ) := by
        exact_mod_cast Nat.succ_le_of_lt hky
      have hcx2 : (sceneBoundsLightSpace verts).size.x / (N : ℚ) * (((i / N : ℕ) : ℚ) + 1)
          ≤ (sceneBoundsLightSpace verts).size.x / (N : ℚ) * (N : ℚ) :=
        mul_le_mul_of_nonneg_left hcx1 hsx0
      have hcy2 : (sceneBoundsLightSpace verts).size.y / (N : ℚ) * (((i % N : ℕ) : ℚ) + 1)
          ≤ (sceneBoundsLightSpace verts).size.y / (N : ℚ) * (N : ℚ) :=
        mul_le_mul_of_nonneg_left hcy1 hsy0
      have hnx : (0 : ℚ) ≤ (sceneBoundsLightSpace verts).size.x / (N : ℚ) * ((i / N : ℕ) : ℚ) :=
        mul_nonneg hsx0 (Nat.cast_nonneg _)
      have hny : (0 : ℚ) ≤ (sceneBoundsLightSpace verts).size.y / (N : ℚ) * ((i % N : ℕ) : ℚ) :=
        mul_nonneg hsy0 (Nat.cast_nonneg _)
      have hrx : (sceneBoundsLightSpace verts).size.x / (N : ℚ) * (((i / N : ℕ) : ℚ) + 1)
          = (sceneBoundsLightSpace verts).size.x / (N : ℚ) * ((i / N : ℕ) : ℚ)
          + (sceneBoundsLightSpace verts).size.x / (N : ℚ) := by ring
      have hry : (sceneBoundsLightSpace verts).size.y / (N : ℚ) * (((i % N : ℕ) : ℚ) + 1)
          = (sceneBoundsLightSpace verts).size.y / (N : ℚ) * ((i % N : ℕ) : ℚ)
          + (sceneBoundsLightSpace verts).size.y / (N : ℚ) := by ring
      refine ⟨by linarith, by linarith, by linarith, by linarith, hz1, hz2⟩
  · intro i j hi hj hij q hboth
    obtain ⟨hIq, hJq⟩ := hboth
    obtain ⟨hix1, hix2, hiy1, hiy2⟩ :
        (sceneBoundsLightSpace verts).min.x
          + (sceneBoundsLightSpace verts).size.x / (N : ℚ) * ((i / N : ℕ) : ℚ) < q.x ∧
        q.x < (sceneBoundsLightSpace verts).min.x
          + (sceneBoundsLightSpace verts).size.x / (N : ℚ) * ((i / N : ℕ) : ℚ)
          + (sceneBoundsLightSpace verts).size.x / (N : ℚ) ∧
        (sceneBoundsLightSpace verts).min.y
          + (sceneBoundsLightSpace verts).size.y / (N : ℚ) * ((i % N : ℕ) : ℚ) < q.y ∧
        q.y < (sceneBoundsLightSpace verts).min.y
          + (sceneBoundsLightSpace verts).size.y / (N : ℚ) * ((i % N : ℕ) : ℚ)
          + (sceneBoundsLightSpace verts).size.y / (N : ℚ) := hIq
    obtain ⟨hjx1, hjx2, hjy1, hjy2⟩ :
        (sceneBoundsLightSpace verts).min.x
          + (sceneBoundsLightSpace verts).size.x / (N : ℚ) * ((j / N : ℕ) : ℚ) < q.x ∧
        q.x < (sceneBoundsLightSpace verts).min.x
          + (sceneBoundsLightSpace verts).size.x / (N : ℚ) * ((j / N : ℕ) : ℚ)
          + (sceneBoundsLightSpace verts).size.x / (N : ℚ) ∧
        (sceneBoundsLightSpace verts).min.y
          + (sceneBoundsLightSpace verts).size.y / (N : ℚ) * ((j % N : ℕ) : ℚ) < q.y ∧
        q.y < (sceneBoundsLightSpace verts).min.y
          + (sceneBoundsLightSpace verts).size.y / (N : ℚ) * ((j % N : ℕ) : ℚ)
          + (sceneBoundsLightSpace verts).size.y / (N : ℚ) := hJq
    have hcells : i / N ≠ j / N ∨ i % N ≠ j % N := by
      by_contra hcc
      push_neg at hcc
      have h1 := Nat.div_add_mod i N
      have h2 := Nat.div_add_mod j N
      rw [hcc.1, hcc.2] at h1
      exact hij (h1.symm.trans h2)
    rcases hcells with hx | hy
    · exact tile_interior_disjoint_1D (sceneBoundsLightSpace verts).min.x
        ((sceneBoundsLightSpace verts).size.x / (N : ℚ)) hsx0 (i / N) (j / N) hx
        q.x hix1 hix2 hjx1 hjx2
    · exact tile_interior_disjoint_1D (sceneBoundsLightSpace verts).min.y
        ((sceneBoundsLightSpace verts).size.y / (N : ℚ)) hsy0 (i % N) (j % N) hy
        q.y hiy1 hiy2 hjy1 hjy2

theorem tileBounds_partition_witness :
    ∃ i, i < 2 * 2 ∧ (tileBounds 2 witVerts i).contains ⟨1, 1, 0⟩ :=
  ((tileBounds_partition 2 witVerts (by norm_num)).1 ⟨1, 1, 0⟩).mp
    (by norm_num [sceneBoundsLightSpace, witVerts, Bounds.expandToCover,
      Bounds.contains, V3.zero])

theorem constructorResolution_boundary_witness :
    constructorAssertsPass 16384 = true :=
  (constructorResolution_boundary.2.2.2 16384).mpr (by omega)

theorem sceneBounds_contains_origin_witness :
    (sceneBoundsLightSpace witVerts).contains V3.zero :=
  sceneBounds_contains_origin.1 witVerts
